import Mathlib

/-!
Verification of the cattbl year-event-loss-table (YELT) module.

The pandas series underlying a YELT is modelled as a list of rows, each row
holding the three integer index levels (Year, EventID, DayOfYear) and a
rational loss value; the series attribute n_yrs is passed explicitly.
Float NaN is modelled by Option: none stands for NaN.
-/

/-- Row of a year event loss table: the MultiIndex levels Year, EventID,
DayOfYear (all integers) together with the loss value of the series. -/
structure YeltRow where
  year : Int
  eventId : Int
  dayOfYear : Int
  loss : ℚ
deriving DecidableEq

/-- Index key of a row: the (Year, EventID, DayOfYear) triple. -/
def keyOf (r : YeltRow) : Int × Int × Int := (r.year, r.eventId, r.dayOfYear)

/-- Validity of a YELT series with respect to its data content, as enforced by
YearEventLossTable._validate: unique (Year, EventID, DayOfYear) combinations
and every year within the range 1..n_yrs.  The type-level checks (three integer
index levels, numeric values) hold by construction in this model. -/
def ValidYelt (n : Int) (rows : List YeltRow) : Prop :=
  (rows.map keyOf).Nodup ∧ ∀ r ∈ rows, 1 ≤ r.year ∧ r.year ≤ n

instance (n : Int) (rows : List YeltRow) : Decidable (ValidYelt n rows) := by
  unfold ValidYelt; infer_instance

/-- Descending rank of a loss value with ties sharing the minimum rank, as
computed by pandas rank with ascending False and method min: one plus the
number of entries strictly greater. -/
def rankDescMin (losses : List ℚ) (x : ℚ) : ℕ :=
  losses.countP (fun l => decide (x < l)) + 1

/-- Exceedance frequency of a loss value in a YELT (the exfreq method):
its descending min-rank divided by n_yrs. -/
def exfreq (n : Int) (rows : List YeltRow) (x : ℚ) : ℚ :=
  (rankDescMin (rows.map (fun r => r.loss)) x : ℚ) / (n : ℚ)

/-- Comparator used by to_ef_curve via sort_values on the columns
(Loss, ExFreq, Year, DayOfYear) with ascending (False, True, False, False):
loss descending, then exceedance frequency ascending, then year descending,
then day of year descending. -/
def efLe (a b : YeltRow × ℚ) : Bool :=
  decide (b.1.loss < a.1.loss) ||
    (decide (a.1.loss = b.1.loss) &&
      (decide (a.2 < b.2) ||
        (decide (a.2 = b.2) &&
          (decide (b.1.year < a.1.year) ||
            (decide (a.1.year = b.1.year) &&
              decide (b.1.dayOfYear ≤ a.1.dayOfYear))))))

/-- Rows of the YELT decorated with their exceedance frequency, in the order
produced by pd.concat in to_ef_curve: the original series order. -/
def efDecorated (n : Int) (rows : List YeltRow) : List (YeltRow × ℚ) :=
  rows.map (fun r => (r, exfreq n rows r.loss))

/-- Exceedance frequency curve with keep_index true: the decorated rows sorted
by loss descending, exceedance frequency ascending, year descending and day of
year descending. -/
def toEfCurveFull (n : Int) (rows : List YeltRow) : List (YeltRow × ℚ) :=
  List.mergeSort (efDecorated n rows) efLe

/-- Core of duplicate removal in first-occurrence order, the behaviour of
pandas drop_duplicates: an element already seen is dropped, a new element is
kept and recorded. -/
def edf {α : Type} [DecidableEq α] : List α → List α → List α
  | [], _ => []
  | x :: xs, seen => if x ∈ seen then edf xs seen else x :: edf xs (x :: seen)

/-- Duplicate removal keeping the first occurrence of each value, as
drop_duplicates does. -/
def eraseDupsFirst {α : Type} [DecidableEq α] (l : List α) : List α :=
  edf l []

/-- Exceedance frequency curve with keep_index false (the default): the index
columns are dropped, leaving (Loss, ExFreq) pairs, and duplicate rows are
removed keeping the first.  List position is the zero-based Order index. -/
def toEfCurve (n : Int) (rows : List YeltRow) : List (ℚ × ℚ) :=
  eraseDupsFirst ((toEfCurveFull n rows).map (fun p => (p.1.loss, p.2)))

/-- Inner loop of numpy interp over the remaining table once the query is known
to be at or beyond the first x value: p is the last point passed, and a query
beyond the final x value yields the right fill value. -/
def npInterpGo (x : ℚ) (right : ℚ) : (ℚ × ℚ) → List (ℚ × ℚ) → ℚ
  | p, [] => if p.1 < x then right else p.2
  | p, q :: rest =>
      if x ≤ q.1 then p.2 + (q.2 - p.2) * (x - p.1) / (q.1 - p.1)
      else npInterpGo x right q rest

/-- Linear interpolation in the style of numpy interp over a table of
(x, y) points with increasing x: queries left of the first point give the
left fill value, queries right of the last point give the right fill value,
queries inside the table are linearly interpolated. -/
def npInterp (x : ℚ) (pts : List (ℚ × ℚ)) (left right : ℚ) : ℚ :=
  match pts with
  | [] => 0
  | p :: rest => if x < p.1 then left else npInterpGo x right p rest

/-- Interpolation table that loss_at_rp passes to numpy interp: the
(ExFreq, Loss) columns of the exceedance frequency curve. -/
def efTable (n : Int) (rows : List YeltRow) : List (ℚ × ℚ) :=
  (toEfCurve n rows).map (fun p => (p.2, p.1))

/-- Translation of loss_at_rp.  The return periods are copied, entries that
are not strictly positive are replaced by NaN (none), and numpy interp is
applied to the reciprocal of each entry over the (ExFreq, Loss) table, with
the curve maximum loss as left fill and zero as right fill.  On an empty
table the maximum-loss lookup ef_curve Loss iloc 0 fails with an IndexError,
modelled as the outer none. -/
def lossAtRp (n : Int) (rows : List YeltRow) (rps : List ℚ) :
    Option (List (Option ℚ)) :=
  let curve := toEfCurve n rows
  match curve.head? with
  | none => none
  | some p0 =>
      some (rps.map (fun rp =>
        if rp ≤ 0 then none
        else some (npInterp (1 / rp) (efTable n rows) p0.1 0)))

/-- Maximum of a list of rationals (only used on nonempty lists). -/
def listMax : List ℚ → ℚ
  | [] => 0
  | [x] => x
  | x :: y :: t => max x (listMax (y :: t))

/-- Maximum loss present in a YELT, stated from the spec wording: the largest
loss value appearing in the table. -/
def maxLossOf (rows : List YeltRow) : ℚ :=
  listMax (rows.map (fun r => r.loss))

/-- Specification-side description of linear interpolation of y as a function
of x over a table of (x, y) points: the result either sits at a table point
with the query x, or is the linear interpolant across two adjacent table
points bracketing the query strictly. -/
def LinInterpAt (pts : List (ℚ × ℚ)) (x y : ℚ) : Prop :=
  (∃ p ∈ pts, p.1 = x ∧ p.2 = y) ∨
    ∃ i x0 y0 x1 y1, pts.get? i = some (x0, y0) ∧
      pts.get? (i + 1) = some (x1, y1) ∧ x0 < x ∧ x < x1 ∧
      y = y0 + (y1 - y0) * (x - x0) / (x1 - x0)

instance {ε α : Type} [DecidableEq ε] [DecidableEq α] :
    DecidableEq (Except ε α) := fun x y =>
  match x, y with
  | .ok a, .ok b =>
      if h : a = b then .isTrue (congrArg Except.ok h)
      else .isFalse (fun hc => h (Except.ok.inj hc))
  | .error a, .error b =>
      if h : a = b then .isTrue (congrArg Except.error h)
      else .isFalse (fun hc => h (Except.error.inj hc))
  | .ok _, .error _ => .isFalse (fun hc => Except.noConfusion hc)
  | .error _, .ok _ => .isFalse (fun hc => Except.noConfusion hc)

/-- Clip a value from above by an optional limit: pandas clip with upper
equal to None leaves the value unchanged. -/
def clipUpper (v : ℚ) : Option ℚ → ℚ
  | none => v
  | some m => min v m

/-- Loss of a single record after the layer attachment and limit of
apply_layer: subtract the attachment, clip below at zero, clip above at the
limit when one is given. -/
def layerLoss (limit : Option ℚ) (xs : ℚ) (l : ℚ) : ℚ :=
  clipUpper (max (l - xs) 0) limit

/-- Surviving records of apply_layer before the occurrence cap: each loss is
transformed by the attachment and limit, records whose transformed loss is
not strictly positive are dropped, and under franchise cover the attachment
is added back to each survivor. -/
def layerSurvivors (limit : Option ℚ) (xs : ℚ) (isFranchise : Bool)
    (rows : List YeltRow) : List YeltRow :=
  let layered := rows.map (fun r => { r with loss := layerLoss limit xs r.loss })
  let surv := layered.filter (fun r => decide (0 < r.loss))
  if isFranchise then surv.map (fun r => { r with loss := r.loss + xs }) else surv

/-- Comparator for sort_index on the levels (Year, DayOfYear, EventID):
lexicographic ascending order on those three key fields. -/
def ydeLe (a b : YeltRow) : Bool :=
  decide (a.year < b.year) ||
    (decide (a.year = b.year) &&
      (decide (a.dayOfYear < b.dayOfYear) ||
        (decide (a.dayOfYear = b.dayOfYear) &&
          decide (a.eventId ≤ b.eventId))))

/-- Loop of the per-year occurrence cap, pandas groupby head: walking the rows
in order, a row is kept while fewer than k rows of its year have been seen. -/
def hpyGo (k : ℕ) : List YeltRow → (Int → ℕ) → List YeltRow
  | [], _ => []
  | r :: rest, cnt =>
      if cnt r.year < k then
        r :: hpyGo k rest (fun y => if y = r.year then cnt y + 1 else cnt y)
      else hpyGo k rest (fun y => if y = r.year then cnt y + 1 else cnt y)

/-- First k rows of each year in row order, the behaviour of
groupby Year followed by head. -/
def headPerYear (k : ℕ) (l : List YeltRow) : List YeltRow :=
  hpyGo k l (fun _ => 0)

/-- Translation of apply_layer.  The assert on the attachment turns a negative
xs into an immediate error.  Otherwise the attachment, limit, zero-loss drop
and franchise steps produce the survivors, and when an occurrence cap is given
the survivors are sorted by (Year, DayOfYear, EventID) ascending and the first
n_loss rows of each year are retained. -/
def applyLayer (rows : List YeltRow) (limit : Option ℚ) (xs : ℚ)
    (nLoss : Option ℕ) (isFranchise : Bool) : Except String (List YeltRow) :=
  if xs < 0 then .error "Lower loss must be >= 0"
  else
    let surv := layerSurvivors limit xs isFranchise rows
    match nLoss with
    | none => .ok surv
    | some k => .ok (headPerYear k (List.mergeSort surv ydeLe))

/-- Losses of the records of a given year, in row order. -/
def yearLosses (rows : List YeltRow) (y : Int) : List ℚ :=
  (rows.filter (fun r => decide (r.year = y))).map (fun r => r.loss)

/-- Distinct years present in a YELT, sorted ascending as pandas groupby
orders its groups. -/
def yearsOf (rows : List YeltRow) : List Int :=
  List.mergeSort (eraseDupsFirst (rows.map (fun r => r.year)))
    (fun a b => decide (a ≤ b))

/-- Translation of to_ylt: group the records by year and aggregate each group,
by maximum when is_occurrence is set and by sum otherwise. -/
def toYlt (rows : List YeltRow) (isOccurrence : Bool) : List (Int × ℚ) :=
  (yearsOf rows).map (fun y =>
    (y, if isOccurrence then listMax (yearLosses rows y)
        else (yearLosses rows y).sum))

/-- Model of the candidate pandas series examined by the validator: the index
level names, whether each index level has integer dtype, whether the values
are numeric, the optional n_yrs attribute, and the index keys as
(Year, EventID, DayOfYear) triples. -/
structure SeriesModel where
  indexNames : List String
  levelsInteger : List Bool
  numericValues : Bool
  nYrsAttr : Option Int
  keys : List (Int × Int × Int)
deriving DecidableEq

/-- Distinguishable validation errors, one per raise site of _validate. -/
inductive ValErr where
  | wrongLevelCount
  | wrongNames
  | nonIntegerIndex
  | nonNumeric
  | missingNYrs
  | notUnique
  | yearOutOfRange
deriving DecidableEq

/-- Translation of YearEventLossTable._validate, with its checks in source
order: three index levels, the expected level names, integer index dtypes,
numeric values, the n_yrs attribute, unique keys, and years inside 1..n_yrs
(the year-range comparison on an empty index compares NaN and never fires). -/
def validate (obj : SeriesModel) : Except ValErr Unit :=
  if obj.indexNames.length ≠ 3 then .error .wrongLevelCount
  else if ¬ (["Year", "DayOfYear", "EventID"].all
      (fun c => obj.indexNames.contains c)) then .error .wrongNames
  else if ¬ obj.levelsInteger.all id then .error .nonIntegerIndex
  else if ¬ obj.numericValues then .error .nonNumeric
  else if obj.nYrsAttr.isNone then .error .missingNYrs
  else if ¬ obj.keys.Nodup then .error .notUnique
  else if obj.keys.any (fun k => decide (k.1 < 1)) ||
      (match obj.nYrsAttr with
       | some n => obj.keys.any (fun k => decide (n < k.1))
       | none => false) then .error .yearOutOfRange
  else .ok ()

/-- Specification-side YELT invariants from the spec: exactly three index
levels named Year, EventID and DayOfYear, all index levels integer-typed,
numeric loss values, the n_yrs attribute present, unique key combinations,
and every year within 1..n_yrs. -/
def IsValidYeltSeries (obj : SeriesModel) : Prop :=
  obj.indexNames.length = 3 ∧
  "Year" ∈ obj.indexNames ∧
  "EventID" ∈ obj.indexNames ∧
  "DayOfYear" ∈ obj.indexNames ∧
  (∀ b ∈ obj.levelsInteger, b = true) ∧
  obj.numericValues = true ∧
  obj.nYrsAttr.isSome ∧
  obj.keys.Nodup ∧
  ∀ k ∈ obj.keys, 1 ≤ k.1 ∧ ∀ m, obj.nYrsAttr = some m → k.1 ≤ m

/-- Modelled from the spec: the ylt accessor of the companion year-loss-table
module is not part of the sources under review; per the spec its loss_at_rp
interpolates losses at the given return periods against the year loss table's
own exceedance curve, which is the same rank, sort, dedup and interpolation
pipeline applied to the aggregated per-year losses. -/
def yltLossAtRp (n : Int) (ylt : List (Int × ℚ)) (rps : List ℚ) :
    Option (List (Option ℚ)) :=
  lossAtRp n (ylt.map (fun p => ⟨p.1, 0, 0, p.2⟩)) rps

/-- Translation of to_ep_summary: aggregate to a YLT with the requested
semantics, interpolate at the return periods against the YLT's own curve, and
index the resulting losses by return period. -/
def toEpSummary (n : Int) (rows : List YeltRow) (rps : List ℚ)
    (isOccurrence : Bool) : Option (List (ℚ × Option ℚ)) :=
  (yltLossAtRp n (toYlt rows isOccurrence) rps).map (fun losses => rps.zip losses)

/-- Translation of to_ep_summaries.  The aggregate and occurrence summaries
are computed (an empty YLT surfaces the IndexError of loss_at_rp), the
aggregate column is renamed, and then the code invokes the nonexistent series
method renaem, so every execution that reaches that line raises an
AttributeError instead of returning the combined table. -/
def toEpSummaries (n : Int) (rows : List YeltRow) (rps : List ℚ)
    (isEef : Bool) : Except String (List (ℚ × ℚ × ℚ × ℚ)) :=
  match toEpSummary n rows rps false with
  | none => .error "IndexError"
  | some _aep =>
      match toEpSummary n rows rps true with
      | none => .error "IndexError"
      | some _oep =>
          .error "AttributeError: Series object has no attribute renaem"

/-- Heap of numpy arrays, addressed by allocation order, used to model
in-place mutation of float arrays of optional rationals (none is NaN). -/
structure NpHeap where
  arrays : List (List (Option ℚ))

/-- Read the array at an address (a missing address reads as empty). -/
def readArr (h : NpHeap) (i : ℕ) : List (Option ℚ) :=
  h.arrays.getD i []

/-- Overwrite the array at an address in place. -/
def writeArr (h : NpHeap) (i : ℕ) (v : List (Option ℚ)) : NpHeap :=
  ⟨h.arrays.set i v⟩

/-- Allocate a fresh array, returning its address. -/
def allocArr (h : NpHeap) (v : List (Option ℚ)) : NpHeap × ℕ :=
  (⟨h.arrays ++ [v]⟩, h.arrays.length)

/-- Masking step on one entry: an entry that is at most zero becomes NaN, and
a NaN entry stays NaN since its comparison with zero is false. -/
def maskNonpos : Option ℚ → Option ℚ
  | none => none
  | some x => if x ≤ 0 then none else some x

/-- Heap-level translation of loss_at_rp, tracking aliasing of the caller's
return-period array: the exceedance curve and its maximum loss are read
first, then np.array copies the caller's array into a fresh allocation, the
mask assignment mutates only that fresh copy, and the interpolated losses are
computed from the mutated copy. -/
def lossAtRpProg (h : NpHeap) (a : ℕ) (n : Int) (rows : List YeltRow) :
    NpHeap × Option (List (Option ℚ)) :=
  let curve := toEfCurve n rows
  match curve.head? with
  | none => (h, none)
  | some p0 =>
      let copied := allocArr h (readArr h a)
      let h1 := copied.1
      let b := copied.2
      let h2 := writeArr h1 b ((readArr h1 b).map maskNonpos)
      (h2, some ((readArr h2 b).map (fun v =>
        v.bind (fun rp => some (npInterp (1 / rp) (efTable n rows) p0.1 0)))))

/-! Lemmas about duplicate removal. -/

theorem edf_sublist {α : Type} [DecidableEq α] :
    ∀ (l seen : List α), (edf l seen).Sublist l
  | [], _ => .slnil
  | x :: xs, seen => by
      unfold edf
      split
      · exact (edf_sublist xs seen).cons x
      · exact (edf_sublist xs (x :: seen)).cons₂ x

theorem edf_mem_imp {α : Type} [DecidableEq α] :
    ∀ (l seen : List α) (a : α), a ∈ edf l seen → a ∈ l ∧ a ∉ seen
  | [], seen, a => by simp [edf]
  | x :: xs, seen, a => by
      unfold edf
      split
      · intro hm
        have h := edf_mem_imp xs seen a hm
        exact ⟨List.mem_cons_of_mem x h.1, h.2⟩
      · intro hm
        rcases List.mem_cons.mp hm with rfl | hm2
        · exact ⟨List.mem_cons_self a xs, by assumption⟩
        · have h := edf_mem_imp xs (x :: seen) a hm2
          exact ⟨List.mem_cons_of_mem x h.1,
            fun hs => h.2 (List.mem_cons_of_mem x hs)⟩

theorem edf_mem_of {α : Type} [DecidableEq α] :
    ∀ (l seen : List α) (a : α), a ∈ l → a ∉ seen → a ∈ edf l seen
  | [], _, a => by simp
  | x :: xs, seen, a => by
      intro hl hs
      unfold edf
      split
      · rcases List.mem_cons.mp hl with rfl | hm2
        · exact absurd (by assumption) hs
        · exact edf_mem_of xs seen a hm2 hs
      · rcases List.mem_cons.mp hl with rfl | hm2
        · exact List.mem_cons_self a _
        · by_cases hax : a = x
          · subst hax; exact List.mem_cons_self a _
          · exact List.mem_cons_of_mem x
              (edf_mem_of xs (x :: seen) a hm2
                (fun hin => (List.mem_cons.mp hin).elim hax hs))

theorem edf_nodup {α : Type} [DecidableEq α] :
    ∀ (l seen : List α), (edf l seen).Nodup
  | [], _ => List.nodup_nil
  | x :: xs, seen => by
      unfold edf
      split
      · exact edf_nodup xs seen
      · refine List.nodup_cons.mpr ⟨fun hmem => ?_, edf_nodup xs (x :: seen)⟩
        exact (edf_mem_imp xs (x :: seen) x hmem).2 (List.mem_cons_self x seen)

theorem edf_map {α β : Type} [DecidableEq α] [DecidableEq β]
    (g : α → β) (hg : Function.Injective g) :
    ∀ (l seen : List α),
      edf (l.map g) (seen.map g) = (edf l seen).map g
  | [], _ => rfl
  | x :: xs, seen => by
      simp only [List.map_cons]
      unfold edf
      by_cases hx : x ∈ seen
      · rw [if_pos (List.mem_map_of_mem g hx), if_pos hx, edf_map g hg xs seen]
      · have hgx : g x ∉ seen.map g := by
          intro hc
          rcases List.mem_map.mp hc with ⟨a, ha, hEq⟩
          exact hx (hg hEq ▸ ha)
        rw [if_neg hgx, if_neg hx, List.map_cons]
        have := edf_map g hg xs (x :: seen)
        simp only [List.map_cons] at this
        rw [this]

theorem eraseDupsFirst_mem {α : Type} [DecidableEq α] (l : List α) (a : α) :
    a ∈ eraseDupsFirst l ↔ a ∈ l := by
  constructor
  · exact fun h => (edf_mem_imp l [] a h).1
  · exact fun h => edf_mem_of l [] a h (by simp)

theorem eraseDupsFirst_sublist {α : Type} [DecidableEq α] (l : List α) :
    (eraseDupsFirst l).Sublist l := edf_sublist l []

theorem eraseDupsFirst_nodup {α : Type} [DecidableEq α] (l : List α) :
    (eraseDupsFirst l).Nodup := edf_nodup l []

theorem eraseDupsFirst_cons {α : Type} [DecidableEq α] (x : α) (xs : List α) :
    eraseDupsFirst (x :: xs) = x :: edf xs [x] := by
  simp [eraseDupsFirst, edf]

/-! Lemmas about the list maximum. -/

theorem listMax_mem : ∀ (l : List ℚ), l ≠ [] → listMax l ∈ l
  | [], h => absurd rfl h
  | [x], _ => by simp [listMax]
  | x :: y :: t, _ => by
      rw [listMax]
      rcases max_cases x (listMax (y :: t)) with ⟨hEq, _⟩ | ⟨hEq, _⟩
      · rw [hEq]; exact List.mem_cons_self x _
      · rw [hEq]
        exact List.mem_cons_of_mem x (listMax_mem (y :: t) (by simp))

theorem le_listMax : ∀ (l : List ℚ) (x : ℚ), x ∈ l → x ≤ listMax l
  | [], x, h => absurd h (by simp)
  | [a], x, h => by
      rcases List.mem_singleton.mp h with rfl
      simp [listMax]
  | a :: b :: t, x, h => by
      rw [listMax]
      rcases List.mem_cons.mp h with rfl | h2
      · exact le_max_left _ _
      · exact le_trans (le_listMax (b :: t) x h2) (le_max_right _ _)

theorem listMax_eq_of (l : List ℚ) (x : ℚ) (hx : x ∈ l)
    (hub : ∀ y ∈ l, y ≤ x) : listMax l = x :=
  le_antisymm (hub _ (listMax_mem l (List.ne_nil_of_mem hx))) (le_listMax l x hx)

/-! Counting lemmas for the exceedance frequency rank. -/

theorem countP_gt_strict :
    ∀ (l : List ℚ) (a b : ℚ), a ∈ l → b < a →
      l.countP (fun x => decide (a < x)) < l.countP (fun x => decide (b < x))
  | [], a, b, h, _ => absurd h (by simp)
  | c :: t, a, b, h, hba => by
      rcases List.mem_cons.mp h with rfl | h2
      · have h1 : t.countP (fun x => decide (a < x)) ≤
            t.countP (fun x => decide (b < x)) :=
          List.countP_mono_left (fun x _ hax => by
            simp only [decide_eq_true_eq] at *
            exact lt_trans hba hax)
        simp only [List.countP_cons, decide_eq_true_eq]
        rw [if_neg (by simp), if_pos (by simpa using hba)]
        omega
      · have h1 := countP_gt_strict t a b h2 hba
        simp only [List.countP_cons, decide_eq_true_eq]
        by_cases hc : a < c
        · rw [if_pos (by simpa using hc), if_pos (by simp [lt_trans hba hc])]
          omega
        · rw [if_neg (by simpa using hc)]
          split <;> omega

theorem countP_gt_mono (l : List ℚ) (a b : ℚ) (hba : b ≤ a) :
    l.countP (fun x => decide (a < x)) ≤ l.countP (fun x => decide (b < x)) :=
  List.countP_mono_left (fun x _ hax => by
    simp only [decide_eq_true_eq] at *
    exact lt_of_le_of_lt hba hax)

/-! Generic steps for lexicographic Boolean comparators. -/

theorem lexDesc_trans {α : Type} [LinearOrder α] {x y z : α} {r s t : Bool}
    (hrst : r = true → s = true → t = true) :
    (decide (y < x) || (decide (x = y) && r)) = true →
    (decide (z < y) || (decide (y = z) && s)) = true →
    (decide (z < x) || (decide (x = z) && t)) = true := by
  intro h1 h2
  simp only [Bool.or_eq_true, Bool.and_eq_true, decide_eq_true_eq] at *
  rcases h1 with h1 | ⟨e1, hr⟩ <;> rcases h2 with h2 | ⟨e2, hs⟩
  · exact Or.inl (lt_trans h2 h1)
  · exact Or.inl (e2 ▸ h1)
  · exact Or.inl (e1 ▸ h2)
  · exact Or.inr ⟨e1.trans e2, hrst hr hs⟩

theorem lexDesc_total {α : Type} [LinearOrder α] (x y : α) {r s : Bool}
    (hrs : (r || s) = true) :
    ((decide (y < x) || (decide (x = y) && r)) ||
      (decide (x < y) || (decide (y = x) && s))) = true := by
  simp only [Bool.or_eq_true, Bool.and_eq_true, decide_eq_true_eq] at *
  rcases lt_trichotomy x y with h | h | h
  · exact Or.inr (Or.inl h)
  · rcases hrs with hr | hs
    · exact Or.inl (Or.inr ⟨h, hr⟩)
    · exact Or.inr (Or.inr ⟨h.symm, hs⟩)
  · exact Or.inl (Or.inl h)

theorem lexAsc_trans {α : Type} [LinearOrder α] {x y z : α} {r s t : Bool}
    (hrst : r = true → s = true → t = true) :
    (decide (x < y) || (decide (x = y) && r)) = true →
    (decide (y < z) || (decide (y = z) && s)) = true →
    (decide (x < z) || (decide (x = z) && t)) = true := by
  intro h1 h2
  simp only [Bool.or_eq_true, Bool.and_eq_true, decide_eq_true_eq] at *
  rcases h1 with h1 | ⟨e1, hr⟩ <;> rcases h2 with h2 | ⟨e2, hs⟩
  · exact Or.inl (lt_trans h1 h2)
  · exact Or.inl (e2 ▸ h1)
  · exact Or.inl (e1 ▸ h2)
  · exact Or.inr ⟨e1.trans e2, hrst hr hs⟩

theorem lexAsc_total {α : Type} [LinearOrder α] (x y : α) {r s : Bool}
    (hrs : (r || s) = true) :
    ((decide (x < y) || (decide (x = y) && r)) ||
      (decide (y < x) || (decide (y = x) && s))) = true := by
  simp only [Bool.or_eq_true, Bool.and_eq_true, decide_eq_true_eq] at *
  rcases lt_trichotomy x y with h | h | h
  · exact Or.inl (Or.inl h)
  · rcases hrs with hr | hs
    · exact Or.inl (Or.inr ⟨h, hr⟩)
    · exact Or.inr (Or.inr ⟨h.symm, hs⟩)
  · exact Or.inr (Or.inl h)

/-! Transitivity and totality of the two sort comparators. -/

theorem efLe_trans (a b c : YeltRow × ℚ) (hab : efLe a b = true)
    (hbc : efLe b c = true) : efLe a c = true := by
  unfold efLe at *
  refine lexDesc_trans (fun h1 h2 => ?_) hab hbc
  refine lexAsc_trans (fun h3 h4 => ?_) h1 h2
  refine lexDesc_trans (fun h5 h6 => ?_) h3 h4
  simp only [decide_eq_true_eq] at *
  exact le_trans h6 h5

theorem efLe_total (a b : YeltRow × ℚ) : (efLe a b || efLe b a) = true := by
  unfold efLe
  refine lexDesc_total a.1.loss b.1.loss ?_
  refine lexAsc_total a.2 b.2 ?_
  refine lexDesc_total a.1.year b.1.year ?_
  simp only [Bool.or_eq_true, decide_eq_true_eq]
  exact le_total _ _

theorem ydeLe_trans (a b c : YeltRow) (hab : ydeLe a b = true)
    (hbc : ydeLe b c = true) : ydeLe a c = true := by
  unfold ydeLe at *
  refine lexAsc_trans (fun h1 h2 => ?_) hab hbc
  refine lexAsc_trans (fun h3 h4 => ?_) h1 h2
  simp only [decide_eq_true_eq] at *
  exact le_trans h3 h4

theorem ydeLe_total (a b : YeltRow) : (ydeLe a b || ydeLe b a) = true := by
  unfold ydeLe
  refine lexAsc_total a.year b.year ?_
  refine lexAsc_total a.dayOfYear b.dayOfYear ?_
  simp only [Bool.or_eq_true, decide_eq_true_eq]
  exact le_total _ _

/-- Sorted output of to_ef_curve with keep_index true. -/
theorem toEfCurveFull_sorted (n : Int) (rows : List YeltRow) :
    List.Pairwise (fun a b => efLe a b = true) (toEfCurveFull n rows) :=
  List.sorted_mergeSort (fun a b c => efLe_trans a b c) efLe_total
    (efDecorated n rows)

/-- Permutation property of the sort inside to_ef_curve. -/
theorem toEfCurveFull_perm (n : Int) (rows : List YeltRow) :
    (toEfCurveFull n rows).Perm (efDecorated n rows) :=
  List.mergeSort_perm (efDecorated n rows) efLe

/-- Membership in the sorted decorated list describes the attached
exceedance frequency and ties the row back to the input. -/
theorem toEfCurveFull_mem (n : Int) (rows : List YeltRow)
    (p : YeltRow × ℚ) (hp : p ∈ toEfCurveFull n rows) :
    p.2 = exfreq n rows p.1.loss ∧ p.1 ∈ rows := by
  have hd : p ∈ efDecorated n rows := (toEfCurveFull_perm n rows).mem_iff.mp hp
  rcases List.mem_map.mp hd with ⟨r, hr, hEq⟩
  constructor
  · rw [← hEq]
  · rw [← hEq]; exact hr

/-- Validity forces at least one modelled year, hence a positive n_yrs, as
soon as the table is nonempty. -/
theorem valid_n_pos (n : Int) (rows : List YeltRow) (hval : ValidYelt n rows)
    (hne : rows ≠ []) : 1 ≤ n := by
  rcases List.exists_mem_of_ne_nil rows hne with ⟨r, hr⟩
  have := hval.2 r hr
  omega

/-- Antitone comparison of exceedance frequencies for a positive n_yrs. -/
theorem exfreq_anti (n : Int) (rows : List YeltRow) (hn : 1 ≤ n)
    (a b : ℚ) (hba : b ≤ a) : exfreq n rows a ≤ exfreq n rows b := by
  unfold exfreq rankDescMin
  have hnum := countP_gt_mono (rows.map (fun r => r.loss)) a b hba
  have hn0 : (0 : ℚ) < (n : ℚ) := by exact_mod_cast hn
  have hq : ((rows.map (fun r => r.loss)).countP (fun x => decide (a < x)) + 1 : ℚ) ≤
      ((rows.map (fun r => r.loss)).countP (fun x => decide (b < x)) + 1 : ℚ) := by
    exact_mod_cast Nat.succ_le_succ hnum
  gcongr

/-- Strictly antitone comparison of exceedance frequencies for losses present
in the table, for a positive n_yrs. -/
theorem exfreq_strict_anti (n : Int) (rows : List YeltRow) (hn : 1 ≤ n)
    (a b : ℚ) (ha : a ∈ rows.map (fun r => r.loss)) (hba : b < a) :
    exfreq n rows a < exfreq n rows b := by
  unfold exfreq rankDescMin
  have hnum := countP_gt_strict (rows.map (fun r => r.loss)) a b ha hba
  have hn0 : (0 : ℚ) < (n : ℚ) := by exact_mod_cast hn
  have hq : ((rows.map (fun r => r.loss)).countP (fun x => decide (a < x)) + 1 : ℚ) <
      ((rows.map (fun r => r.loss)).countP (fun x => decide (b < x)) + 1 : ℚ) := by
    exact_mod_cast Nat.succ_lt_succ hnum
  gcongr

/-- Losses never increase along the comparator. -/
theorem efLe_loss_le (a b : YeltRow × ℚ) (h : efLe a b = true) :
    b.1.loss ≤ a.1.loss := by
  unfold efLe at h
  simp only [Bool.or_eq_true, Bool.and_eq_true, decide_eq_true_eq] at h
  rcases h with h | ⟨e, _⟩
  · exact le_of_lt h
  · exact le_of_eq e.symm

/-- Membership in the deduplicated curve: the exceedance frequency column is a
function of the loss column, and each curve loss comes from the table. -/
theorem toEfCurve_mem (n : Int) (rows : List YeltRow) (q : ℚ × ℚ)
    (hq : q ∈ toEfCurve n rows) :
    q.2 = exfreq n rows q.1 ∧ q.1 ∈ rows.map (fun r => r.loss) := by
  have hsub : q ∈ (toEfCurveFull n rows).map (fun p => (p.1.loss, p.2)) :=
    (eraseDupsFirst_mem _ q).mp hq
  rcases List.mem_map.mp hsub with ⟨p, hp, hEq⟩
  have hm := toEfCurveFull_mem n rows p hp
  constructor
  · rw [← hEq]; exact hm.1
  · rw [← hEq]; exact List.mem_map_of_mem _ hm.2

/-- Losses of the deduplicated curve strictly decrease along the Order
position. -/
theorem toEfCurve_fst_strict (n : Int) (rows : List YeltRow) :
    List.Pairwise (fun p q => q.1 < p.1) (toEfCurve n rows) := by
  have hsorted := toEfCurveFull_sorted n rows
  have hmap : List.Pairwise (fun p q : ℚ × ℚ => q.1 ≤ p.1)
      ((toEfCurveFull n rows).map (fun p => (p.1.loss, p.2))) := by
    rw [List.pairwise_map]
    exact hsorted.imp (fun h => efLe_loss_le _ _ h)
  have hle : List.Pairwise (fun p q : ℚ × ℚ => q.1 ≤ p.1) (toEfCurve n rows) :=
    hmap.sublist (eraseDupsFirst_sublist _)
  have hnd : List.Pairwise (fun p q : ℚ × ℚ => p ≠ q) (toEfCurve n rows) :=
    eraseDupsFirst_nodup _
  refine (hle.and hnd).imp_of_mem (fun ha hb hab => ?_)
  rcases lt_or_eq_of_le hab.1 with h | h
  · exact h
  · exfalso
    apply hab.2
    have h1 := toEfCurve_mem n rows _ ha
    have h2 := toEfCurve_mem n rows _ hb
    exact Prod.ext h.symm (by rw [h1.1, h2.1, h])

/-- Exceedance frequencies of the deduplicated curve strictly increase along
the Order position whenever n_yrs is positive. -/
theorem toEfCurve_snd_strict (n : Int) (rows : List YeltRow) (hn : 1 ≤ n) :
    List.Pairwise (fun p q => p.2 < q.2) (toEfCurve n rows) := by
  refine (toEfCurve_fst_strict n rows).imp_of_mem (fun ha hb hab => ?_)
  have h1 := toEfCurve_mem n rows _ ha
  have h2 := toEfCurve_mem n rows _ hb
  rw [h1.1, h2.1]
  exact exfreq_strict_anti n rows hn _ _ h1.2 hab

/-- Exceedance frequencies never decrease along the sorted full curve
whenever n_yrs is positive. -/
theorem toEfCurveFull_snd_mono (n : Int) (rows : List YeltRow) (hn : 1 ≤ n) :
    List.Pairwise (fun p q => p.2 ≤ q.2) (toEfCurveFull n rows) := by
  refine (toEfCurveFull_sorted n rows).imp_of_mem (fun ha hb hab => ?_)
  have h1 := toEfCurveFull_mem n rows _ ha
  have h2 := toEfCurveFull_mem n rows _ hb
  rw [h1.1, h2.1]
  exact exfreq_anti n rows hn _ _ (efLe_loss_le _ _ hab)

/-- Head of the deduplicated curve: the first row carries the maximum loss
present in the table. -/
theorem toEfCurve_head (n : Int) (rows : List YeltRow) (hne : rows ≠ []) :
    ∃ e, (toEfCurve n rows).head? = some (maxLossOf rows, e) := by
  have hperm := toEfCurveFull_perm n rows
  have hdne : efDecorated n rows ≠ [] := by
    unfold efDecorated
    simpa using hne
  have hfne : toEfCurveFull n rows ≠ [] := by
    intro hc
    exact hdne (List.Perm.nil_eq (hc ▸ hperm)).symm
  rcases hx : toEfCurveFull n rows with _ | ⟨p, t⟩
  · exact absurd hx hfne
  refine ⟨p.2, ?_⟩
  have hmax : p.1.loss = maxLossOf rows := by
    refine (listMax_eq_of _ _ ?_ ?_).symm
    · exact List.mem_map_of_mem _
        (toEfCurveFull_mem n rows p (hx ▸ List.mem_cons_self p t)).2
    · intro y hy
      rcases List.mem_map.mp hy with ⟨r, hr, hEq⟩
      have hrdec : (r, exfreq n rows r.loss) ∈ efDecorated n rows :=
        List.mem_map_of_mem _ hr
      have hrfull : (r, exfreq n rows r.loss) ∈ toEfCurveFull n rows :=
        hperm.mem_iff.mpr hrdec
      rw [hx] at hrfull
      rcases List.mem_cons.mp hrfull with hEq2 | hmem
      · rw [← hEq, ← hEq2]
      · have hs := toEfCurveFull_sorted n rows
        rw [hx] at hs
        have := (List.pairwise_cons.mp hs).1 _ hmem
        rw [← hEq]
        exact efLe_loss_le _ _ this
  unfold toEfCurve
  rw [hx, List.map_cons, eraseDupsFirst_cons, hmax]
  rfl

/-- Heads of nondecreasing pairwise lists bound every member from below. -/
theorem pairwise_head_le (l : List ℚ) (a : ℚ)
    (h : List.Pairwise (fun p q : ℚ => p ≤ q) (a :: l)) :
    ∀ x ∈ a :: l, a ≤ x := by
  intro x hx
  rcases List.mem_cons.mp hx with rfl | hx2
  · exact le_refl x
  · exact (List.pairwise_cons.mp h).1 x hx2

/-- Last elements of nondecreasing pairwise lists bound every member from
above. -/
theorem pairwise_le_getLast :
    ∀ (l : List ℚ), List.Pairwise (fun p q : ℚ => p ≤ q) l →
      ∀ x ∈ l, ∀ z, l.getLast? = some z → x ≤ z
  | [], _, x, hx => absurd hx (by simp)
  | [a], _, x, hx => by
      rcases List.mem_singleton.mp hx with rfl
      intro z hz
      simp only [List.getLast?_singleton, Option.some.injEq] at hz
      exact le_of_eq hz
  | a :: b :: t, h, x, hx => by
      intro z hz
      have hz2 : (b :: t).getLast? = some z := by
        rw [List.getLast?_cons_cons] at hz
        exact hz
      have hzt : z ∈ b :: t := by
        rcases List.mem_of_mem_getLast? hz2 with hm
        exact hm
      rcases List.mem_cons.mp hx with rfl | hx2
      · exact (List.pairwise_cons.mp h).1 z hzt
      · exact pairwise_le_getLast (b :: t) (List.pairwise_cons.mp h).2 x hx2 z hz2

/-- Linear interpolation witnesses transport from a tail to the whole list. -/
theorem LinInterpAt_cons (p : ℚ × ℚ) (rest : List (ℚ × ℚ)) (x y : ℚ)
    (h : LinInterpAt rest x y) : LinInterpAt (p :: rest) x y := by
  rcases h with ⟨q, hq, h1, h2⟩ | ⟨i, x0, y0, x1, y1, h1, h2, h3, h4, h5⟩
  · exact Or.inl ⟨q, List.mem_cons_of_mem p hq, h1, h2⟩
  · exact Or.inr ⟨i + 1, x0, y0, x1, y1, h1, h2, h3, h4, h5⟩

/-- Correctness of the interpolation loop: on a strictly increasing table,
with the query at or beyond the point already passed and not beyond the last
point, the loop returns a genuine linear interpolant. -/
theorem npInterpGo_correct :
    ∀ (rest : List (ℚ × ℚ)) (p : ℚ × ℚ) (x r : ℚ),
      List.Pairwise (fun a b : ℚ × ℚ => a.1 < b.1) (p :: rest) →
      p.1 ≤ x → (∀ z, (p :: rest).getLast? = some z → x ≤ z.1) →
      LinInterpAt (p :: rest) x (npInterpGo x r p rest)
  | [], p, x, r, _, hlo, hhi => by
      have hxp : x = p.1 := le_antisymm (hhi p rfl) hlo
      unfold npInterpGo
      rw [if_neg (not_lt.mpr (le_of_eq hxp))]
      exact Or.inl ⟨p, List.mem_cons_self p [], hxp.symm, rfl⟩
  | q :: rest2, p, x, r, hp, hlo, hhi => by
      have hpq : p.1 < q.1 :=
        (List.pairwise_cons.mp hp).1 q (List.mem_cons_self q rest2)
      unfold npInterpGo
      by_cases hxq : x ≤ q.1
      · rw [if_pos hxq]
        rcases eq_or_lt_of_le hlo with hxp | hxp
        · refine Or.inl ⟨p, List.mem_cons_self p _, hxp, ?_⟩
          rw [← hxp, sub_self, mul_zero, zero_div, add_zero]
        · rcases eq_or_lt_of_le hxq with hxq2 | hxq2
          · refine Or.inl ⟨q, List.mem_cons_of_mem p (List.mem_cons_self q _),
              hxq2.symm, ?_⟩
            rw [hxq2, mul_div_assoc, div_self (sub_ne_zero.mpr (ne_of_gt hpq)),
              mul_one]
            ring
          · exact Or.inr ⟨0, p.1, p.2, q.1, q.2, rfl, rfl, hxp, hxq2, rfl⟩
      · rw [if_neg hxq]
        have hrec := npInterpGo_correct rest2 q x r (List.pairwise_cons.mp hp).2
          (le_of_lt (lt_of_not_le hxq))
          (fun z hz => hhi z (by rw [List.getLast?_cons_cons]; exact hz))
        exact LinInterpAt_cons p _ x _ hrec

/-- Unfolding equation of npInterp on a nonempty table. -/
theorem npInterp_cons (x left right : ℚ) (p : ℚ × ℚ) (rest : List (ℚ × ℚ)) :
    npInterp x (p :: rest) left right =
      if x < p.1 then left else npInterpGo x right p rest := rfl

/-- Correctness of the modelled numpy interp inside the table range. -/
theorem npInterp_correct (pts : List (ℚ × ℚ)) (x left right : ℚ)
    (hp : List.Pairwise (fun a b : ℚ × ℚ => a.1 < b.1) pts)
    (h0 : ℚ × ℚ) (hhead : pts.head? = some h0) (hlo : h0.1 ≤ x)
    (hhi : ∀ z, pts.getLast? = some z → x ≤ z.1) :
    LinInterpAt pts x (npInterp x pts left right) := by
  rcases pts with _ | ⟨p, rest⟩
  · cases hhead
  · have hph : p = h0 := by
      simpa using hhead
    rw [npInterp_cons, if_neg (not_lt.mpr (hph ▸ hlo))]
    exact npInterpGo_correct rest p x right hp (hph ▸ hlo) hhi

/-- Queries beyond every table point fall through the loop to the right fill
value. -/
theorem npInterpGo_right :
    ∀ (rest : List (ℚ × ℚ)) (p : ℚ × ℚ) (x r : ℚ),
      p.1 < x → (∀ q ∈ rest, q.1 < x) → npInterpGo x r p rest = r
  | [], p, x, r, hpx, _ => by
      unfold npInterpGo
      rw [if_pos hpx]
  | q :: rest2, p, x, r, hpx, hall => by
      unfold npInterpGo
      rw [if_neg (not_le.mpr (hall q (List.mem_cons_self q rest2)))]
      exact npInterpGo_right rest2 q x r (hall q (List.mem_cons_self q rest2))
        (fun z hz => hall z (List.mem_cons_of_mem q hz))

/-- Queries beyond every table point give the right fill value. -/
theorem npInterp_right (pts : List (ℚ × ℚ)) (x left right : ℚ)
    (hne : pts ≠ []) (hall : ∀ p ∈ pts, p.1 < x) :
    npInterp x pts left right = right := by
  rcases pts with _ | ⟨p, rest⟩
  · exact absurd rfl hne
  · rw [npInterp_cons,
      if_neg (not_lt.mpr (le_of_lt (hall p (List.mem_cons_self p rest))))]
    exact npInterpGo_right rest p x right (hall p (List.mem_cons_self p rest))
      (fun z hz => hall z (List.mem_cons_of_mem p hz))

/-- Queries left of the first table point give the left fill value. -/
theorem npInterp_left (pts : List (ℚ × ℚ)) (x left right : ℚ)
    (h0 : ℚ × ℚ) (hhead : pts.head? = some h0) (hx : x < h0.1) :
    npInterp x pts left right = left := by
  rcases pts with _ | ⟨p, rest⟩
  · cases hhead
  · have hph : p = h0 := by simpa using hhead
    rw [npInterp_cons, if_pos (hph ▸ hx)]

/-! Lemmas for the year aggregation comparison. -/

/-- Nonnegative lists with zero sum are all zero. -/
theorem all_zero_of_sum_zero :
    ∀ (l : List ℚ), (∀ x ∈ l, 0 ≤ x) → l.sum = 0 → ∀ x ∈ l, x = 0
  | [], _, _, x, hx => absurd hx (by simp)
  | a :: t, hpos, hsum, x, hx => by
      rw [List.sum_cons] at hsum
      have hts : 0 ≤ t.sum :=
        List.sum_nonneg (fun y hy => hpos y (List.mem_cons_of_mem a hy))
      have ha : 0 ≤ a := hpos a (List.mem_cons_self a t)
      have ha0 : a = 0 := by linarith
      have hts0 : t.sum = 0 := by linarith
      rcases List.mem_cons.mp hx with rfl | hx2
      · exact ha0
      · exact all_zero_of_sum_zero t
          (fun y hy => hpos y (List.mem_cons_of_mem a hy)) hts0 x hx2

/-- Maximum of a nonempty all-nonnegative list compared with its sum: the
maximum never exceeds the sum, and they agree exactly when at most one entry
is strictly positive. -/
theorem listMax_sum :
    ∀ (l : List ℚ), l ≠ [] → (∀ x ∈ l, 0 ≤ x) →
      listMax l ≤ l.sum ∧
      (listMax l = l.sum ↔ l.countP (fun x => decide (0 < x)) ≤ 1)
  | [], h, _ => absurd rfl h
  | [a], _, hpos => by
      constructor
      · simp [listMax]
      · constructor
        · intro _
          simp only [List.countP_cons, List.countP_nil]
          split <;> omega
        · intro _
          simp [listMax]
  | a :: b :: t, _, hpos => by
      have hpos2 : ∀ x ∈ b :: t, 0 ≤ x :=
        fun x hx => hpos x (List.mem_cons_of_mem a hx)
      have ha : 0 ≤ a := hpos a (List.mem_cons_self a _)
      obtain ⟨ih1, ih2⟩ := listMax_sum (b :: t) (by simp) hpos2
      have hsum2 : 0 ≤ (b :: t).sum := List.sum_nonneg hpos2
      have hmax2 : 0 ≤ listMax (b :: t) :=
        le_trans (hpos2 _ (listMax_mem (b :: t) (by simp)))
          (le_listMax _ _ (listMax_mem (b :: t) (by simp)))
      have hcnt : (a :: b :: t).countP (fun x => decide (0 < x)) =
          (b :: t).countP (fun x => decide (0 < x)) +
            (if 0 < a then 1 else 0) := by
        rw [List.countP_cons]
        split <;> simp_all
      rw [listMax, List.sum_cons]
      refine ⟨max_le (by linarith) (by linarith), ?_, ?_⟩
      · intro hEq
        rcases le_total a (listMax (b :: t)) with hab | hab
        · rw [max_eq_right hab] at hEq
          have ha0 : a = 0 := by linarith
          have : listMax (b :: t) = (b :: t).sum := by linarith
          have := ih2.mp this
          rw [hcnt, if_neg (by simp [ha0])]
          omega
        · rw [max_eq_left hab] at hEq
          have hts0 : (b :: t).sum = 0 := by linarith
          have hallz := all_zero_of_sum_zero (b :: t) hpos2 hts0
          have hcnt0 : (b :: t).countP (fun x => decide (0 < x)) = 0 :=
            List.countP_eq_zero.mpr (fun y hy => by
              simp only [decide_eq_true_eq]
              rw [hallz y hy]
              exact lt_irrefl 0)
          rw [hcnt, hcnt0]
          split <;> omega
      · intro hcle
        by_cases ha0 : 0 < a
        · rw [hcnt, if_pos ha0] at hcle
          have hcnt0 : (b :: t).countP (fun x => decide (0 < x)) = 0 := by
            omega
          have hallz : ∀ y ∈ b :: t, y = 0 := by
            intro y hy
            have := List.countP_eq_zero.mp hcnt0 y hy
            simp only [decide_eq_true_eq, not_lt] at this
            exact le_antisymm this (hpos2 y hy)
          have hts0 : (b :: t).sum = 0 := List.sum_eq_zero hallz
          have hm0 : listMax (b :: t) = 0 := by
            have hmem := listMax_mem (b :: t) (by simp)
            exact hallz _ hmem
          rw [hm0, hts0, max_eq_left (le_of_lt ha0)]
          ring
        · have ha00 : a = 0 := le_antisymm (not_lt.mp ha0) ha
          rw [hcnt, if_neg ha0] at hcle
          have := ih2.mpr (by omega)
          rw [ha00, max_eq_right hmax2, this]
          ring

/-! Lemmas for the occurrence cap. -/

/-- Filtering a year out of the occurrence-cap loop output takes exactly the
first remaining slots of that year's rows. -/
theorem hpyGo_filter (k : ℕ) :
    ∀ (l : List YeltRow) (cnt : Int → ℕ) (y : Int),
      (hpyGo k l cnt).filter (fun r => decide (r.year = y)) =
        (l.filter (fun r => decide (r.year = y))).take (k - cnt y)
  | [], _, _ => by simp [hpyGo]
  | r :: rest, cnt, y => by
      have hbump := hpyGo_filter k rest
        (fun y2 => if y2 = r.year then cnt y2 + 1 else cnt y2) y
      unfold hpyGo
      by_cases hc : cnt r.year < k
      · rw [if_pos hc]
        by_cases hy : r.year = y
        · rw [List.filter_cons_of_pos (by simpa using hy),
            List.filter_cons_of_pos (by simpa using hy), hbump,
            if_pos hy.symm]
          have hcy : cnt y = cnt r.year := by rw [hy]
          rw [hcy]
          have hk : k - cnt r.year = (k - (cnt r.year + 1)) + 1 := by omega
          rw [hk, List.take_succ_cons]
        · rw [List.filter_cons_of_neg (by simpa using hy),
            List.filter_cons_of_neg (by simpa using hy), hbump,
            if_neg (Ne.symm hy)]
      · rw [if_neg hc]
        by_cases hy : r.year = y
        · rw [List.filter_cons_of_pos (by simpa using hy), hbump,
            if_pos hy.symm]
          have hcy : cnt y = cnt r.year := by rw [hy]
          rw [hcy]
          have h1 : k - (cnt r.year + 1) = 0 := by omega
          have h2 : k - cnt r.year = 0 := by omega
          rw [h1, h2]
          simp
        · rw [List.filter_cons_of_neg (by simpa using hy), hbump,
            if_neg (Ne.symm hy)]

/-- Per-year content of the occurrence cap: the first k rows of each year. -/
theorem headPerYear_filter (k : ℕ) (l : List YeltRow) (y : Int) :
    (headPerYear k l).filter (fun r => decide (r.year = y)) =
      (l.filter (fun r => decide (r.year = y))).take k := by
  unfold headPerYear
  rw [hpyGo_filter]
  norm_num

/-! Lemmas for the year aggregation membership. -/

/-- Years present in the table are exactly the members of yearsOf. -/
theorem yearsOf_mem (rows : List YeltRow) (y : Int) :
    y ∈ yearsOf rows ↔ y ∈ rows.map (fun r => r.year) := by
  unfold yearsOf
  rw [(List.mergeSort_perm _ _).mem_iff, eraseDupsFirst_mem]

/-- Aggregated values listed by to_ylt. -/
theorem toYlt_mem (rows : List YeltRow) (isOccurrence : Bool) (y : Int)
    (hy : y ∈ rows.map (fun r => r.year)) :
    (y, if isOccurrence then listMax (yearLosses rows y)
        else (yearLosses rows y).sum) ∈ toYlt rows isOccurrence := by
  unfold toYlt
  exact List.mem_map_of_mem _ ((yearsOf_mem rows y).mpr hy)

/-- Year keys of to_ylt are exactly the distinct years, each occurring once. -/
theorem toYlt_keys (rows : List YeltRow) (isOccurrence : Bool) :
    (toYlt rows isOccurrence).map (fun p => p.1) = yearsOf rows ∧
      (yearsOf rows).Nodup := by
  constructor
  · unfold toYlt
    rw [List.map_map]
    have h : ((fun p : Int × ℚ => p.1) ∘ fun y =>
        (y, if isOccurrence = true then listMax (yearLosses rows y)
            else (yearLosses rows y).sum)) = fun y => y := rfl
    rw [h, List.map_id']
  · unfold yearsOf
    exact (List.mergeSort_perm _ _).nodup_iff.mpr (eraseDupsFirst_nodup _)

/-- Losses recorded for a year present in the table form a nonempty list. -/
theorem yearLosses_ne_nil (rows : List YeltRow) (y : Int)
    (hy : y ∈ rows.map (fun r => r.year)) : yearLosses rows y ≠ [] := by
  rcases List.mem_map.mp hy with ⟨r, hr, hEq⟩
  have hrf : r ∈ rows.filter (fun r2 => decide (r2.year = y)) :=
    List.mem_filter.mpr ⟨hr, by simpa using hEq⟩
  have : r.loss ∈ yearLosses rows y := List.mem_map_of_mem _ hrf
  exact List.ne_nil_of_mem this

/-- Losses recorded for a year are losses of rows of the table. -/
theorem yearLosses_subset (rows : List YeltRow) (y : Int) (x : ℚ)
    (hx : x ∈ yearLosses rows y) : ∃ r ∈ rows, r.loss = x := by
  rcases List.mem_map.mp hx with ⟨r, hr, hEq⟩
  exact ⟨r, (List.mem_filter.mp hr).1, hEq⟩

/-- Deduplication of (Loss, ExFreq) pairs coincides with keeping the first
row per distinct loss value, because the frequency column is a function of
the loss column. -/
theorem toEfCurve_as_firstPerLoss (n : Int) (rows : List YeltRow) :
    toEfCurve n rows =
      (eraseDupsFirst ((toEfCurveFull n rows).map (fun p => p.1.loss))).map
        (fun l => (l, exfreq n rows l)) := by
  unfold toEfCurve
  have hmap : (toEfCurveFull n rows).map (fun p => (p.1.loss, p.2)) =
      ((toEfCurveFull n rows).map (fun p => p.1.loss)).map
        (fun l => (l, exfreq n rows l)) := by
    rw [List.map_map]
    refine List.map_congr_left (fun p hp => ?_)
    have h2 := (toEfCurveFull_mem n rows p hp).1
    simp only [Function.comp]
    rw [h2]
  rw [hmap]
  unfold eraseDupsFirst
  exact edf_map _ (fun a b h => congrArg Prod.fst h) _ []

/-- C5: to_ef_curve attaches to each record the exceedance frequency
rank_descending(loss, ties min) / n_yrs, sorts the combined rows by loss
descending, then exfreq ascending, then year descending, then day_of_year
descending, and with keep_index false drops the key columns and keeps only
the first row per distinct loss value; the resulting list position is the
zero-based Order index. -/
theorem toEfCurve_c5 (n : Int) (rows : List YeltRow) :
    (toEfCurveFull n rows).Perm (efDecorated n rows) ∧
    List.Pairwise (fun a b => efLe a b = true) (toEfCurveFull n rows) ∧
    (∀ p ∈ toEfCurveFull n rows,
      p.2 = ((rankDescMin (rows.map (fun r => r.loss)) p.1.loss : ℕ) : ℚ) /
        (n : ℚ)) ∧
    toEfCurve n rows =
      (eraseDupsFirst ((toEfCurveFull n rows).map (fun p => p.1.loss))).map
        (fun l => (l, exfreq n rows l)) :=
  ⟨toEfCurveFull_perm n rows, toEfCurveFull_sorted n rows,
    fun p hp => (toEfCurveFull_mem n rows p hp).1,
    toEfCurve_as_firstPerLoss n rows⟩

/-- C6: for a valid YELT the ExFreq column of the exceedance frequency curve
is non-decreasing along the sorted full curve, strictly increasing across the
deduplicated curve, and therefore the (ExFreq, Loss) table handed to the
interpolation has strictly increasing x values. -/
theorem toEfCurve_c6 (n : Int) (rows : List YeltRow) (hval : ValidYelt n rows) :
    List.Pairwise (fun p q => p.2 ≤ q.2) (toEfCurveFull n rows) ∧
    List.Pairwise (fun p q => p.2 < q.2) (toEfCurve n rows) ∧
    List.Pairwise (fun a b => a.1 < b.1) (efTable n rows) := by
  rcases eq_or_ne rows [] with rfl | hne
  · have h1 : toEfCurveFull n [] = [] := by
      simp [toEfCurveFull, efDecorated]
    have h2 : toEfCurve n [] = [] := by
      unfold toEfCurve
      rw [h1]
      rfl
    have h3 : efTable n [] = [] := by
      unfold efTable
      rw [h2]
      rfl
    rw [h1, h2, h3]
    exact ⟨List.Pairwise.nil, List.Pairwise.nil, List.Pairwise.nil⟩
  · have hn := valid_n_pos n rows hval hne
    refine ⟨toEfCurveFull_snd_mono n rows hn, toEfCurve_snd_strict n rows hn, ?_⟩
    unfold efTable
    rw [List.pairwise_map]
    exact toEfCurve_snd_strict n rows hn

/-- Shared example table: n_yrs 10, three events in two years. -/
def yeltExample : List YeltRow := [⟨1, 1, 10, 100⟩, ⟨1, 2, 20, 50⟩, ⟨2, 3, 30, 200⟩]

/-- Witness for C6 at a concrete valid table. -/
theorem toEfCurve_c6_witness :
    ValidYelt 10 yeltExample ∧
      (List.Pairwise (fun p q => p.2 ≤ q.2) (toEfCurveFull 10 yeltExample) ∧
       List.Pairwise (fun p q => p.2 < q.2) (toEfCurve 10 yeltExample) ∧
       List.Pairwise (fun a b => a.1 < b.1) (efTable 10 yeltExample)) :=
  ⟨by decide, toEfCurve_c6 10 yeltExample (by decide)⟩

/-- C1 (amended: the table must be nonempty, since on an empty valid YELT the
maximum-loss lookup raises an IndexError): for every nonempty valid YELT and
every sequence of return periods, loss_at_rp returns a same-length sequence
computed independently per element; an entry with return period at most 0 is
NaN, an entry whose target frequency lies below the curve minimum yields the
maximum loss present in the table, an entry whose target frequency lies above
the curve maximum yields 0, and every other entry is the linear interpolation
of loss as a function of exceedance frequency. -/
theorem lossAtRp_c1 (n : Int) (rows : List YeltRow) (hval : ValidYelt n rows)
    (hne : rows ≠ []) (rps : List ℚ) :
    ∃ out fmin fmax,
      lossAtRp n rows rps = some out ∧
      out.length = rps.length ∧
      ((efTable n rows).map (fun p => p.1)).head? = some fmin ∧
      (∀ f ∈ (efTable n rows).map (fun p => p.1), fmin ≤ f) ∧
      ((efTable n rows).map (fun p => p.1)).getLast? = some fmax ∧
      (∀ f ∈ (efTable n rows).map (fun p => p.1), f ≤ fmax) ∧
      ∀ i rp, rps.get? i = some rp →
        (rp ≤ 0 → out.get? i = some none) ∧
        (0 < rp → 1 / rp < fmin → out.get? i = some (some (maxLossOf rows))) ∧
        (0 < rp → fmax < 1 / rp → out.get? i = some (some 0)) ∧
        (0 < rp → fmin ≤ 1 / rp → 1 / rp ≤ fmax →
          ∃ y, out.get? i = some (some y) ∧
            LinInterpAt (efTable n rows) (1 / rp) y) := by
  have hn := valid_n_pos n rows hval hne
  obtain ⟨e0, hhead⟩ := toEfCurve_head n rows hne
  have houtf : lossAtRp n rows rps = some (rps.map (fun rp =>
      if rp ≤ 0 then none
      else some (npInterp (1 / rp) (efTable n rows) (maxLossOf rows) 0))) := by
    simp only [lossAtRp, hhead]
  have htblhead : (efTable n rows).head? = some (e0, maxLossOf rows) := by
    unfold efTable
    rw [List.head?_map, hhead]
    rfl
  have hfhead : ((efTable n rows).map (fun p => p.1)).head? = some e0 := by
    rw [List.head?_map, htblhead]
    rfl
  have htblpair : List.Pairwise (fun a b : ℚ × ℚ => a.1 < b.1)
      (efTable n rows) := by
    unfold efTable
    rw [List.pairwise_map]
    exact toEfCurve_snd_strict n rows hn
  have hfpair : List.Pairwise (fun a b : ℚ => a ≤ b)
      ((efTable n rows).map (fun p => p.1)) := by
    rw [List.pairwise_map]
    exact htblpair.imp (fun h => le_of_lt h)
  have hfne : (efTable n rows).map (fun p => p.1) ≠ [] := by
    intro hc
    rw [hc] at hfhead
    cases hfhead
  obtain ⟨fmax, hflast⟩ : ∃ z, ((efTable n rows).map (fun p => p.1)).getLast?
      = some z := by
    rcases hl : ((efTable n rows).map (fun p => p.1)).getLast? with _ | z
    · exact absurd (List.getLast?_eq_none_iff.mp hl) hfne
    · exact ⟨z, hl⟩
  have hfmin_le : ∀ f ∈ (efTable n rows).map (fun p => p.1), e0 ≤ f := by
    rcases hfl : (efTable n rows).map (fun p => p.1) with _ | ⟨f0, frest⟩
    · intro f hf
      rw [hfl] at hf
      cases hf
    · have hf0 : f0 = e0 := by
        rw [hfl] at hfhead
        simpa using hfhead
      intro f hf
      rw [hfl] at hf
      have hp2 := hfpair
      rw [hfl] at hp2
      exact hf0 ▸ pairwise_head_le frest f0 hp2 f hf
  have hfmax_ge : ∀ f ∈ (efTable n rows).map (fun p => p.1), f ≤ fmax :=
    fun f hf => pairwise_le_getLast _ hfpair f hf fmax hflast
  refine ⟨_, e0, fmax, houtf, List.length_map _ _, hfhead, hfmin_le, hflast,
    hfmax_ge, ?_⟩
  intro i rp hget
  have hout : (rps.map (fun rp =>
      if rp ≤ 0 then none
      else some (npInterp (1 / rp) (efTable n rows) (maxLossOf rows) 0))).get? i
      = some (if rp ≤ 0 then none
      else some (npInterp (1 / rp) (efTable n rows) (maxLossOf rows) 0)) := by
    rw [List.get?_eq_getElem?, List.getElem?_map, ← List.get?_eq_getElem?, hget]
    rfl
  refine ⟨?_, ?_, ?_, ?_⟩
  · intro hle
    rw [hout, if_pos hle]
  · intro hpos hlt
    rw [hout, if_neg (not_le.mpr hpos),
      npInterp_left _ _ _ _ _ htblhead hlt]
  · intro hpos hgt
    rw [hout, if_neg (not_le.mpr hpos),
      npInterp_right _ _ _ _ (by
        intro hc
        rw [hc] at htblhead
        cases htblhead) (by
        intro p hp
        have : p.1 ∈ (efTable n rows).map (fun q => q.1) :=
          List.mem_map_of_mem _ hp
        exact lt_of_le_of_lt (hfmax_ge _ this) hgt)]
  · intro hpos hlo hhi
    rw [hout, if_neg (not_le.mpr hpos)]
    refine ⟨_, rfl, ?_⟩
    refine npInterp_correct _ _ _ _ htblpair _ htblhead hlo ?_
    intro z hz
    have : z.1 = fmax := by
      rw [List.getLast?_map, hz] at hflast
      simpa using hflast
    rw [this]
    exact hhi

/-- Positivity of a layered loss under a positive (or absent) limit happens
exactly when the original loss exceeds the attachment. -/
theorem layerLoss_pos_iff (limit : Option ℚ) (xs l : ℚ)
    (hlim : ∀ m, limit = some m → 0 < m) :
    0 < layerLoss limit xs l ↔ xs < l := by
  unfold layerLoss clipUpper
  rcases limit with _ | m
  · rw [lt_max_iff]
    simp [sub_pos]
  · have hm := hlim m rfl
    rw [lt_min_iff, lt_max_iff]
    simp [sub_pos, hm]

/-- Unfolding equation for the absent limit. -/
theorem clipUpper_none (v : ℚ) : clipUpper v none = v := rfl

/-- Unfolding equation for a present limit. -/
theorem clipUpper_some (v m : ℚ) : clipUpper v (some m) = min v m := rfl

/-- Facts about a record that survives the layer: its loss exceeds the
attachment, and adding the attachment back recovers the original loss exactly
when the excess loss fits under the limit. -/
theorem layerLoss_pos_facts (limit : Option ℚ) (xs l : ℚ)
    (h : 0 < layerLoss limit xs l) :
    xs < l ∧ (layerLoss limit xs l + xs = l ↔
      ∀ m, limit = some m → l - xs ≤ m) := by
  unfold layerLoss at *
  rcases limit with _ | m
  · rw [clipUpper_none] at h ⊢
    rw [lt_max_iff] at h
    have hlxs : 0 < l - xs := by
      rcases h with h2 | h2
      · exact h2
      · exact absurd h2 (lt_irrefl 0)
    refine ⟨by linarith, ?_⟩
    rw [max_eq_left (le_of_lt hlxs)]
    exact iff_of_true (by ring) (fun m hm => by cases hm)
  · rw [clipUpper_some] at h ⊢
    have h2 := lt_min_iff.mp h
    have hmax := lt_max_iff.mp h2.1
    have hlxs : 0 < l - xs := by
      rcases hmax with h3 | h3
      · exact h3
      · exact absurd h3 (lt_irrefl 0)
    refine ⟨by linarith, ?_⟩
    rw [max_eq_left (le_of_lt hlxs)]
    constructor
    · intro hEq m2 hm2
      have hm2e : m2 = m := by
        injection hm2 with h4
        exact h4.symm
      subst hm2e
      have h5 : min (l - xs) m2 = l - xs := by linarith
      exact min_eq_left_iff.mp h5
    · intro hall
      rw [min_eq_left (hall m rfl)]
      ring

/-- C2 (amended: a supplied limit must be positive; with a zero or negative
limit every transformed loss is clipped to a nonpositive value and dropped,
so records whose loss exceeds the attachment disappear too): apply_layer with
xs at least 0 and no franchise transforms each loss by the attachment and
limit clip, keeps exactly the records whose loss strictly exceeds xs, maps a
loss of 100 to 50 under limit 50 and xs 20 while dropping a loss of 10, and a
negative xs is an immediate precondition failure. -/
theorem applyLayer_c2 (rows : List YeltRow) (limit : Option ℚ) (xs : ℚ)
    (hxs : 0 ≤ xs) (hlim : ∀ m, limit = some m → 0 < m) :
    applyLayer rows limit xs none false =
      .ok ((rows.filter (fun r => decide (xs < r.loss))).map
        (fun r => { r with loss := layerLoss limit xs r.loss })) ∧
    (∀ xs2 : ℚ, xs2 < 0 →
      applyLayer rows limit xs2 none false =
        .error "Lower loss must be >= 0") ∧
    applyLayer [⟨1, 1, 1, 100⟩, ⟨1, 2, 2, 10⟩] (some 50) 20 none false =
      .ok [⟨1, 1, 1, 50⟩] := by
  refine ⟨?_, ?_, by
    norm_num [applyLayer, layerSurvivors, layerLoss, clipUpper, List.filter,
      max_def, min_def]⟩
  · have hsurv : layerSurvivors limit xs false rows =
        (rows.filter (fun r => decide (xs < r.loss))).map
          (fun r => { r with loss := layerLoss limit xs r.loss }) := by
      unfold layerSurvivors
      rw [if_neg Bool.false_ne_true, List.filter_map]
      refine congrArg _ (List.filter_congr (fun r _ => ?_))
      simp only [Function.comp]
      exact decide_eq_decide.mpr (layerLoss_pos_iff limit xs r.loss hlim)
    unfold applyLayer
    rw [if_neg (not_lt.mpr hxs)]
    exact congrArg Except.ok hsurv
  · intro xs2 hxs2
    unfold applyLayer
    rw [if_pos hxs2]

/-- Witness for C2 at concrete arguments. -/
theorem applyLayer_c2_witness :
    (0 : ℚ) ≤ 20 ∧
    (applyLayer yeltExample (some 50) 20 none false =
      .ok ((yeltExample.filter (fun r => decide ((20 : ℚ) < r.loss))).map
        (fun r => { r with loss := layerLoss (some 50) 20 r.loss })) ∧
    (∀ xs2 : ℚ, xs2 < 0 →
      applyLayer yeltExample (some 50) xs2 none false =
        .error "Lower loss must be >= 0") ∧
    applyLayer [⟨1, 1, 1, 100⟩, ⟨1, 2, 2, 10⟩] (some 50) 20 none false =
      .ok [⟨1, 1, 1, 50⟩]) :=
  ⟨by norm_num, applyLayer_c2 yeltExample (some 50) 20 (by norm_num)
    (fun m hm => by cases hm; norm_num)⟩

/-- C2 counterexample: with the negative limit -5 and attachment 0 the record
with loss 10 exceeds the attachment yet the result is empty, refuting the
unconditional claim that the result contains exactly the records whose loss
strictly exceeds xs. -/
theorem applyLayer_c2_counterexample :
    applyLayer [⟨1, 1, 1, 10⟩] (some (-5)) 0 none false = .ok [] ∧
      (([⟨1, 1, 1, 10⟩] : List YeltRow).filter
        (fun r => decide ((0 : ℚ) < r.loss))).length = 1 := by
  constructor
  · norm_num [applyLayer, layerSurvivors, layerLoss, clipUpper, List.filter,
      max_def, min_def]
  · decide

/-- C3: apply_layer with is_franchise true adds the attachment back to every
surviving record; a survivor's output equals its original loss exactly when
the original loss is at least the attachment and the excess passed the limit
clip, and no output loss lies strictly between 0 and xs. -/
theorem applyLayer_c3 (rows : List YeltRow) (limit : Option ℚ) (xs : ℚ)
    (hxs : 0 ≤ xs) :
    applyLayer rows limit xs none true =
      .ok ((rows.filter (fun r => decide (0 < layerLoss limit xs r.loss))).map
        (fun r => { r with loss := layerLoss limit xs r.loss + xs })) ∧
    (∀ r ∈ rows, 0 < layerLoss limit xs r.loss →
      (layerLoss limit xs r.loss + xs = r.loss ↔
        (xs ≤ r.loss ∧ ∀ m, limit = some m → r.loss - xs ≤ m))) ∧
    (∀ p ∈ (rows.filter (fun r => decide (0 < layerLoss limit xs r.loss))).map
        (fun r => { r with loss := layerLoss limit xs r.loss + xs }),
      ¬(0 < p.loss ∧ p.loss < xs)) := by
  refine ⟨?_, ?_, ?_⟩
  · have hsurv : layerSurvivors limit xs true rows =
        (rows.filter (fun r => decide (0 < layerLoss limit xs r.loss))).map
          (fun r => { r with loss := layerLoss limit xs r.loss + xs }) := by
      unfold layerSurvivors
      rw [if_pos rfl, List.filter_map, List.map_map]
      rfl
    unfold applyLayer
    rw [if_neg (not_lt.mpr hxs)]
    exact congrArg Except.ok hsurv
  · intro r _ hpos
    obtain ⟨hlt, hiff⟩ := layerLoss_pos_facts limit xs r.loss hpos
    constructor
    · intro hEq
      exact ⟨le_of_lt hlt, hiff.mp hEq⟩
    · intro hconj
      exact hiff.mpr hconj.2
  · intro p hp
    rcases List.mem_map.mp hp with ⟨r, hr, hEq⟩
    have hposr : 0 < layerLoss limit xs r.loss := by
      have := (List.mem_filter.mp hr).2
      simpa using this
    intro hcon
    have hploss : p.loss = layerLoss limit xs r.loss + xs := by
      rw [← hEq]
    rw [hploss] at hcon
    linarith [hcon.2]

/-- Witness for C3 at concrete arguments. -/
theorem applyLayer_c3_witness :
    (0 : ℚ) ≤ 20 ∧
    (applyLayer yeltExample (some 50) 20 none true =
      .ok ((yeltExample.filter
          (fun r => decide (0 < layerLoss (some 50) 20 r.loss))).map
        (fun r => { r with loss := layerLoss (some 50) 20 r.loss + 20 })) ∧
    (∀ r ∈ yeltExample, 0 < layerLoss (some 50) 20 r.loss →
      (layerLoss (some 50) 20 r.loss + 20 = r.loss ↔
        ((20 : ℚ) ≤ r.loss ∧ ∀ m, (some (50 : ℚ)) = some m → r.loss - 20 ≤ m))) ∧
    (∀ p ∈ (yeltExample.filter
          (fun r => decide (0 < layerLoss (some 50) 20 r.loss))).map
        (fun r => { r with loss := layerLoss (some 50) 20 r.loss + 20 }),
      ¬(0 < p.loss ∧ p.loss < 20))) :=
  ⟨by norm_num, applyLayer_c3 yeltExample (some 50) 20 (by norm_num)⟩

/-- C4: with an occurrence cap n_loss, apply_layer sorts the survivors in
ascending (Year, DayOfYear, EventID) order and keeps, within each year, only
the first n_loss of them in that positional order, so each year retains at
most n_loss records. -/
theorem applyLayer_c4 (rows : List YeltRow) (limit : Option ℚ) (xs : ℚ)
    (isFranchise : Bool) (k : ℕ) (hxs : 0 ≤ xs) :
    applyLayer rows limit xs (some k) isFranchise =
      .ok (headPerYear k
        (List.mergeSort (layerSurvivors limit xs isFranchise rows) ydeLe)) ∧
    List.Pairwise (fun a b => ydeLe a b = true)
      (List.mergeSort (layerSurvivors limit xs isFranchise rows) ydeLe) ∧
    (List.mergeSort (layerSurvivors limit xs isFranchise rows) ydeLe).Perm
      (layerSurvivors limit xs isFranchise rows) ∧
    ∀ y : Int,
      ((headPerYear k (List.mergeSort (layerSurvivors limit xs isFranchise
          rows) ydeLe)).filter (fun r => decide (r.year = y))).length ≤ k ∧
      (headPerYear k (List.mergeSort (layerSurvivors limit xs isFranchise
          rows) ydeLe)).filter (fun r => decide (r.year = y)) =
        ((List.mergeSort (layerSurvivors limit xs isFranchise rows)
          ydeLe).filter (fun r => decide (r.year = y))).take k := by
  refine ⟨?_,
    List.sorted_mergeSort (fun a b c => ydeLe_trans a b c) ydeLe_total _,
    List.mergeSort_perm _ _, fun y => ⟨?_, headPerYear_filter k _ y⟩⟩
  · unfold applyLayer
    rw [if_neg (not_lt.mpr hxs)]
  · rw [headPerYear_filter]
    rw [List.length_take]
    exact min_le_left _ _

/-- Witness for C4 at concrete arguments. -/
theorem applyLayer_c4_witness :
    (0 : ℚ) ≤ 0 ∧
    (applyLayer yeltExample none 0 (some 1) false =
      .ok (headPerYear 1
        (List.mergeSort (layerSurvivors none 0 false yeltExample) ydeLe)) ∧
    List.Pairwise (fun a b => ydeLe a b = true)
      (List.mergeSort (layerSurvivors none 0 false yeltExample) ydeLe) ∧
    (List.mergeSort (layerSurvivors none 0 false yeltExample) ydeLe).Perm
      (layerSurvivors none 0 false yeltExample) ∧
    ∀ y : Int,
      ((headPerYear 1 (List.mergeSort (layerSurvivors none 0 false
          yeltExample) ydeLe)).filter (fun r => decide (r.year = y))).length ≤ 1 ∧
      (headPerYear 1 (List.mergeSort (layerSurvivors none 0 false
          yeltExample) ydeLe)).filter (fun r => decide (r.year = y)) =
        ((List.mergeSort (layerSurvivors none 0 false yeltExample)
          ydeLe).filter (fun r => decide (r.year = y))).take 1) :=
  ⟨by norm_num, applyLayer_c4 yeltExample none 0 false 1 (by norm_num)⟩

/-- C1 counterexample, refuting the claim at the empty table: the empty
series passes every validation check, yet loss_at_rp on it produces no output
sequence at all, because the maximum-loss lookup ef_curve Loss iloc 0 raises
an IndexError (the outer none of the model). -/
theorem lossAtRp_c1_counterexample :
    ValidYelt 5 ([] : List YeltRow) ∧
      lossAtRp 5 ([] : List YeltRow) [10] = none := by
  constructor
  · decide
  · simp [lossAtRp, toEfCurve, toEfCurveFull, efDecorated, eraseDupsFirst, edf]

/-- Witness for C1 at a concrete nonempty valid table. -/
theorem lossAtRp_c1_witness :
    ValidYelt 10 yeltExample ∧ yeltExample ≠ [] ∧
    (∃ out fmin fmax,
      lossAtRp 10 yeltExample [20, 4] = some out ∧
      out.length = ([20, 4] : List ℚ).length ∧
      ((efTable 10 yeltExample).map (fun p => p.1)).head? = some fmin ∧
      (∀ f ∈ (efTable 10 yeltExample).map (fun p => p.1), fmin ≤ f) ∧
      ((efTable 10 yeltExample).map (fun p => p.1)).getLast? = some fmax ∧
      (∀ f ∈ (efTable 10 yeltExample).map (fun p => p.1), f ≤ fmax) ∧
      ∀ i rp, ([20, 4] : List ℚ).get? i = some rp →
        (rp ≤ 0 → out.get? i = some none) ∧
        (0 < rp → 1 / rp < fmin →
          out.get? i = some (some (maxLossOf yeltExample))) ∧
        (0 < rp → fmax < 1 / rp → out.get? i = some (some 0)) ∧
        (0 < rp → fmin ≤ 1 / rp → 1 / rp ≤ fmax →
          ∃ y, out.get? i = some (some y) ∧
            LinInterpAt (efTable 10 yeltExample) (1 / rp) y)) :=
  ⟨by decide, by decide,
    lossAtRp_c1 10 yeltExample (by decide) (by decide) [20, 4]⟩

/-- Candidate series with a duplicated key. -/
def seriesDupKeys : SeriesModel :=
  ⟨["Year", "DayOfYear", "EventID"], [true, true, true], true, some 10,
    [(1, 1, 1), (1, 1, 1)]⟩

/-- Candidate series with a year outside 1..n_yrs. -/
def seriesYearRange : SeriesModel :=
  ⟨["Year", "DayOfYear", "EventID"], [true, true, true], true, some 2,
    [(3, 1, 1)]⟩

/-- Candidate series with a non-integer index level. -/
def seriesNonIntIndex : SeriesModel :=
  ⟨["Year", "DayOfYear", "EventID"], [true, false, true], true, some 10, []⟩

/-- Candidate series with non-numeric values. -/
def seriesNonNumeric : SeriesModel :=
  ⟨["Year", "DayOfYear", "EventID"], [true, true, true], false, some 10, []⟩

/-- Candidate series missing the n_yrs attribute. -/
def seriesNoNYrs : SeriesModel :=
  ⟨["Year", "DayOfYear", "EventID"], [true, true, true], true, none, []⟩

/-- C7: validation accepts a series exactly when it satisfies all the YELT
invariants, and each separate violation (duplicate key, out-of-range year,
non-integer key, non-numeric loss, missing n_yrs) surfaces as its own
distinguishable error. -/
theorem validate_c7 :
    (∀ obj : SeriesModel, validate obj = .ok () ↔ IsValidYeltSeries obj) ∧
    validate seriesDupKeys = .error .notUnique ∧
    validate seriesYearRange = .error .yearOutOfRange ∧
    validate seriesNonIntIndex = .error .nonIntegerIndex ∧
    validate seriesNonNumeric = .error .nonNumeric ∧
    validate seriesNoNYrs = .error .missingNYrs ∧
    [ValErr.notUnique, ValErr.yearOutOfRange, ValErr.nonIntegerIndex,
      ValErr.nonNumeric, ValErr.missingNYrs].Nodup := by
  refine ⟨?_, by decide, by decide, by decide, by decide, by decide, by decide⟩
  intro obj
  unfold validate IsValidYeltSeries
  split_ifs with h1 h2 h3 h4 h5 h6 h7
  · refine iff_of_false (by simp) ?_
    rintro ⟨hl, -⟩
    exact h1 hl
  · refine iff_of_false (by simp) ?_
    rintro ⟨-, -, -, -, -, -, hsome, -⟩
    rcases Option.isSome_iff_exists.mp hsome with ⟨v, hv⟩
    rw [hv] at h5
    cases h5
  · refine iff_of_false (by simp) ?_
    rintro ⟨-, -, -, -, -, -, hsome, -, hrange⟩
    rcases Option.isSome_iff_exists.mp hsome with ⟨v, hv⟩
    rw [hv] at h7
    rw [Bool.or_eq_true] at h7
    rcases h7 with hany | hany
    · rcases List.any_eq_true.mp hany with ⟨k, hk, hdec⟩
      simp only [decide_eq_true_eq] at hdec
      have := (hrange k hk).1
      omega
    · rcases List.any_eq_true.mp hany with ⟨k, hk, hdec⟩
      simp only [decide_eq_true_eq] at hdec
      have := (hrange k hk).2 v hv
      omega
  · refine iff_of_true rfl ?_
    have hlen : obj.indexNames.length = 3 := not_ne_iff.mp h1
    have hall : ∀ c ∈ ["Year", "DayOfYear", "EventID"],
        obj.indexNames.contains c = true := List.all_eq_true.mp h2
    have hsome : obj.nYrsAttr.isSome := by
      rcases hatt : obj.nYrsAttr with _ | v
      · rw [hatt] at h5
        simp at h5
      · rfl
    refine ⟨hlen, ?_, ?_, ?_, ?_, h4, hsome, h6, ?_⟩
    · have := hall "Year" (by simp)
      simpa using this
    · have := hall "EventID" (by simp)
      simpa using this
    · have := hall "DayOfYear" (by simp)
      simpa using this
    · intro b hb
      have := List.all_eq_true.mp h3 b hb
      simpa using this
    · intro k hk
      rcases hatt : obj.nYrsAttr with _ | v
      · rw [hatt] at hsome
        cases hsome
      · rw [hatt] at h7
        rw [Bool.or_eq_true, not_or] at h7
        obtain ⟨h7a, h7b⟩ := h7
        constructor
        · by_contra hlt
          refine h7a (List.any_eq_true.mpr ⟨k, hk, ?_⟩)
          simp only [decide_eq_true_eq]
          omega
        · intro m hm
          injection hm with hm
          subst hm
          by_contra hgt
          refine h7b (List.any_eq_true.mpr ⟨k, hk, ?_⟩)
          simp only [decide_eq_true_eq]
          omega
  · refine iff_of_false (by simp) ?_
    rintro ⟨-, -, -, -, -, -, -, hnd, -⟩
    exact h6 hnd
  · refine iff_of_false (by simp) ?_
    rintro ⟨-, -, -, -, -, hnum, -⟩
    exact h4 hnum
  · refine iff_of_false (by simp) ?_
    rintro ⟨-, -, -, -, hint, -⟩
    refine h3 ?_
    rw [List.all_eq_true]
    intro b hb
    simpa using hint b hb
  · refine iff_of_false (by simp) ?_
    rintro ⟨-, hY, hE, hD, -⟩
    refine h2 ?_
    rw [List.all_eq_true]
    intro c hc
    simp only [List.mem_cons, List.not_mem_nil, or_false] at hc
    rcases hc with rfl | rfl | rfl
    · simpa using hY
    · simpa using hD
    · simpa using hE

/-- Aggregating a nonempty table yields a nonempty year loss table. -/
theorem toYlt_ne_nil (rows : List YeltRow) (b : Bool) (hne : rows ≠ []) :
    toYlt rows b ≠ [] := by
  rcases rows with _ | ⟨r, rest⟩
  · exact absurd rfl hne
  · intro hc
    have hy : r.year ∈ yearsOf (r :: rest) :=
      (yearsOf_mem _ _).mpr
        (List.mem_map_of_mem _ (List.mem_cons_self r rest))
    unfold toYlt at hc
    rw [List.map_eq_nil_iff] at hc
    rw [hc] at hy
    cases hy

/-- On a nonempty table, loss_at_rp completes and yields an output list. -/
theorem lossAtRp_isSome (n : Int) (rows2 : List YeltRow) (rps : List ℚ)
    (hne : rows2 ≠ []) : ∃ out, lossAtRp n rows2 rps = some out := by
  obtain ⟨e0, hhead⟩ := toEfCurve_head n rows2 hne
  refine ⟨rps.map (fun rp => if rp ≤ 0 then none
    else some (npInterp (1 / rp) (efTable n rows2) (maxLossOf rows2) 0)), ?_⟩
  simp only [lossAtRp, hhead]

/-- On a nonempty table, to_ep_summary completes and yields a summary. -/
theorem toEpSummary_isSome (n : Int) (rows : List YeltRow) (rps : List ℚ)
    (b : Bool) (hne : rows ≠ []) :
    ∃ v, toEpSummary n rows rps b = some v := by
  have hylt2 : (toYlt rows b).map
      (fun p => (⟨p.1, 0, 0, p.2⟩ : YeltRow)) ≠ [] := by
    intro hc
    exact toYlt_ne_nil rows b hne (List.map_eq_nil_iff.mp hc)
  obtain ⟨out, hout⟩ := lossAtRp_isSome n _ rps hylt2
  exact ⟨rps.zip out, by simp [toEpSummary, yltLossAtRp, hout]⟩

/-- C8 (code bug): to_ep_summaries never returns the combined side-by-side
summary: every execution fails, and on any nonempty table the failure is the
AttributeError raised by the misspelt series method renaem at the line that
should rename the occurrence column. -/
theorem toEpSummaries_c8 :
    (∀ (n : Int) (rows : List YeltRow) (rps : List ℚ) (isEef : Bool),
      ∃ e, toEpSummaries n rows rps isEef = .error e) ∧
    (∀ (n : Int) (rows : List YeltRow) (rps : List ℚ) (isEef : Bool),
      rows ≠ [] →
      toEpSummaries n rows rps isEef =
        .error "AttributeError: Series object has no attribute renaem") := by
  constructor
  · intro n rows rps isEef
    cases h1 : toEpSummary n rows rps false with
    | none => exact ⟨"IndexError", by simp [toEpSummaries, h1]⟩
    | some aep =>
        cases h2 : toEpSummary n rows rps true with
        | none => exact ⟨"IndexError", by simp [toEpSummaries, h1, h2]⟩
        | some oep =>
            exact ⟨"AttributeError: Series object has no attribute renaem",
              by simp [toEpSummaries, h1, h2]⟩
  · intro n rows rps isEef hne
    obtain ⟨v1, h1⟩ := toEpSummary_isSome n rows rps false hne
    obtain ⟨v2, h2⟩ := toEpSummary_isSome n rows rps true hne
    simp [toEpSummaries, h1, h2]

/-- C9 (amended: losses must be nonnegative, and equality holds exactly when
at most one event of the year has strictly positive loss): for every valid
YELT with nonnegative losses and every year present, the occurrence aggregate
(the year maximum) never exceeds the annual sum, with equality exactly when
at most one of the year's events has positive loss; the year keys of the
aggregate are the distinct years. -/
theorem toYlt_c9 (n : Int) (rows : List YeltRow) (hval : ValidYelt n rows)
    (hpos : ∀ r ∈ rows, 0 ≤ r.loss) (y : Int)
    (hy : y ∈ rows.map (fun r => r.year)) :
    (y, listMax (yearLosses rows y)) ∈ toYlt rows true ∧
    (y, (yearLosses rows y).sum) ∈ toYlt rows false ∧
    ((toYlt rows true).map (fun p => p.1)).Nodup ∧
    listMax (yearLosses rows y) ≤ (yearLosses rows y).sum ∧
    (listMax (yearLosses rows y) = (yearLosses rows y).sum ↔
      (yearLosses rows y).countP (fun l => decide (0 < l)) ≤ 1) := by
  have hne := yearLosses_ne_nil rows y hy
  have hposy : ∀ x ∈ yearLosses rows y, 0 ≤ x := by
    intro x hx
    rcases yearLosses_subset rows y x hx with ⟨r, hr, hEq⟩
    exact hEq ▸ hpos r hr
  obtain ⟨hle, hiff⟩ := listMax_sum (yearLosses rows y) hne hposy
  refine ⟨by simpa using toYlt_mem rows true y hy,
    by simpa using toYlt_mem rows false y hy, ?_, hle, hiff⟩
  rw [(toYlt_keys rows true).1]
  exact (toYlt_keys rows true).2

/-- Witness for C9 at a concrete table and year. -/
theorem toYlt_c9_witness :
    ValidYelt 10 yeltExample ∧ (∀ r ∈ yeltExample, 0 ≤ r.loss) ∧
      (1 : Int) ∈ yeltExample.map (fun r => r.year) ∧
    ((1, listMax (yearLosses yeltExample 1)) ∈ toYlt yeltExample true ∧
    (1, (yearLosses yeltExample 1).sum) ∈ toYlt yeltExample false ∧
    ((toYlt yeltExample true).map (fun p => p.1)).Nodup ∧
    listMax (yearLosses yeltExample 1) ≤ (yearLosses yeltExample 1).sum ∧
    (listMax (yearLosses yeltExample 1) = (yearLosses yeltExample 1).sum ↔
      (yearLosses yeltExample 1).countP (fun l => decide (0 < l)) ≤ 1)) :=
  ⟨by decide, by decide, by decide,
    toYlt_c9 10 yeltExample (by decide) (by decide) 1 (by decide)⟩

/-- C9 counterexample: with a negative loss the occurrence aggregate strictly
exceeds the annual sum, and with a zero loss the two aggregates agree even
though the year has two events, so neither the inequality nor the stated
equality condition holds as claimed. -/
theorem toYlt_c9_counterexample :
    (ValidYelt 1 [⟨1, 1, 1, 5⟩, ⟨1, 2, 2, -1⟩] ∧
      (1, (5 : ℚ)) ∈ toYlt [⟨1, 1, 1, 5⟩, ⟨1, 2, 2, -1⟩] true ∧
      (1, (4 : ℚ)) ∈ toYlt [⟨1, 1, 1, 5⟩, ⟨1, 2, 2, -1⟩] false ∧
      ¬((5 : ℚ) ≤ 4)) ∧
    (ValidYelt 1 [⟨1, 1, 1, 5⟩, ⟨1, 2, 2, 0⟩] ∧
      (1, (5 : ℚ)) ∈ toYlt [⟨1, 1, 1, 5⟩, ⟨1, 2, 2, 0⟩] true ∧
      (1, (5 : ℚ)) ∈ toYlt [⟨1, 1, 1, 5⟩, ⟨1, 2, 2, 0⟩] false ∧
      (([⟨1, 1, 1, 5⟩, ⟨1, 2, 2, 0⟩] : List YeltRow).filter
        (fun r => decide (r.year = 1))).length = 2) := by
  refine ⟨⟨by decide, ?_, ?_, by norm_num⟩, ⟨by decide, ?_, ?_, by decide⟩⟩
  · norm_num [toYlt, yearsOf, yearLosses, eraseDupsFirst, edf, listMax,
      List.filter]
  · norm_num [toYlt, yearsOf, yearLosses, eraseDupsFirst, edf, List.filter]
  · norm_num [toYlt, yearsOf, yearLosses, eraseDupsFirst, edf, listMax,
      List.filter]
  · norm_num [toYlt, yearsOf, yearLosses, eraseDupsFirst, edf, List.filter]

/-- C10: loss_at_rp never modifies the caller's return-period array: the
mask that replaces non-positive entries with NaN is applied to a fresh copy
made by np.array, so after the call the caller's array is unchanged. -/
theorem lossAtRpProg_c10 (h : NpHeap) (a : ℕ) (ha : a < h.arrays.length)
    (n : Int) (rows : List YeltRow) :
    readArr (lossAtRpProg h a n rows).1 a = readArr h a := by
  cases hc : (toEfCurve n rows).head? with
  | none => simp only [lossAtRpProg, hc]
  | some p0 =>
      simp only [lossAtRpProg, hc]
      unfold readArr writeArr allocArr
      have hne2 : h.arrays.length ≠ a := fun hEq => by omega
      rw [List.getD_eq_getElem?_getD, List.getElem?_set_ne hne2,
        List.getElem?_append_left ha, ← List.getD_eq_getElem?_getD]

/-- Witness for C10 at a concrete heap holding one array. -/
theorem lossAtRpProg_c10_witness :
    0 < (NpHeap.mk [[some 10, some (-3), none]]).arrays.length ∧
      readArr (lossAtRpProg ⟨[[some 10, some (-3), none]]⟩ 0 10 yeltExample).1 0 =
        readArr ⟨[[some 10, some (-3), none]]⟩ 0 :=
  ⟨by decide, lossAtRpProg_c10 ⟨[[some 10, some (-3), none]]⟩ 0 (by decide)
    10 yeltExample⟩

/-- Witness for C8 at a concrete nonempty table. -/
theorem toEpSummaries_c8_witness :
    yeltExample ≠ [] ∧
      toEpSummaries 10 yeltExample [5, 2] true =
        .error "AttributeError: Series object has no attribute renaem" :=
  ⟨by decide, toEpSummaries_c8.2 10 yeltExample [5, 2] true (by decide)⟩
